import Mathlib

/-!
# Verification of the Drive→local sync engine (`src/scripts/fetch.js`)

Shallow embedding of the incremental file-synchronization engine: the
naming sanitizer (`safeName`), the per-directory reconciler (`syncFolder`,
split into its add/update pass and its deletion pass), the orchestrator
(`main`, embedded as `runMain` over its pure decision structure), and the
index builder (the `mediaMap` loop, embedded as `buildMediaMap`).

JavaScript objects used as dictionaries (`state.dirs`, `known`, `folders`)
preserve insertion order; they are embedded as association lists with
JS-object semantics: assigning an existing key updates it in place,
assigning a fresh key appends it, `delete` removes it.  External effects
(the Drive download stream, `fs.unlink`) are embedded as boolean oracles:
`dl f = true` means the download of entry `f` streams to completion,
`false` means the stream (or the file open) errors, which in the source is
a thrown exception, embedded as `Except.error`.  `fs.unlink` failures are
swallowed by `.catch(() => \x7b\x7d)` in the source, so the unlink oracle is
consulted and its outcome discarded.
-/

namespace FetchSync

/-! ## JS-object-as-dictionary model -/

/-- `obj[k]`: first binding for `k` in an insertion-ordered association list. -/
def jget {α : Type} (m : List (String × α)) (k : String) : Option α :=
  (m.find? (fun p => p.1 == k)).map (fun p => p.2)

/-- Per-binding update step of `jset`. -/
def jsetFn {α : Type} (k : String) (v : α) (p : String × α) : String × α :=
  if p.1 == k then (k, v) else p

/-- `obj[k] = v`: JS assignment — update the existing binding in place
(keeping its position) or append a fresh binding at the end. -/
def jset {α : Type} (m : List (String × α)) (k : String) (v : α) :
    List (String × α) :=
  if m.any (fun p => p.1 == k) then m.map (jsetFn k v) else m ++ [(k, v)]

/-! ## Data model (the TS interfaces of fetch.js) -/

/-- One item of a Drive listing (`driveV3.Schema$File` restricted to the
fields requested by `listFolder`: `id,name,mimeType,modifiedTime`); every
field is optional in the API schema. -/
structure RemoteEntry where
  id : Option String
  name : Option String
  mimeType : Option String
  modifiedTime : Option String
deriving Repr, DecidableEq

/-- `interface FileState` — the persisted record of one synced file.
`modifiedTime` is stored as whatever `f.modifiedTime!` held at sync time
(the non-null assertion is a type-level cast only), hence `Option`. -/
structure FileState where
  modifiedTime : Option String
  name : String
  mimeType : Option String
deriving Repr, DecidableEq

/-- `interface DirectoryState`: remote id ↦ FileState. -/
structure DirectoryState where
  files : List (String × FileState)
deriving Repr, DecidableEq

/-- `interface State`: logical directory key ↦ DirectoryState. -/
structure State where
  dirs : List (String × DirectoryState)
deriving Repr, DecidableEq

/-! ## Utility functions -/

/-- JS truthiness of a `string | undefined` value: `undefined` and the
empty string are falsy. -/
def jsTruthy : Option String → Bool
  | none => false
  | some s => s != ""

/-- The character class of `safeName`'s regex `[\/\\?%*:|"<>]`. -/
def isIllegalChar (c : Char) : Bool :=
  c == '/' || c == '\\' || c == '?' || c == '%' || c == '*' ||
  c == ':' || c == '|' || c == '"' || c == '<' || c == '>'

/-- `String.prototype.trim()`: strip leading and trailing whitespace. -/
def jsTrim (s : String) : String :=
  String.mk (((s.data.dropWhile Char.isWhitespace).reverse.dropWhile
    Char.isWhitespace).reverse)

/-- `safeName`: replace every character of the illegal class with the
placeholder `·`, then trim surrounding whitespace. -/
def safeName (s : String) : String :=
  jsTrim (String.mk (s.data.map (fun c => if isIllegalChar c then '·' else c)))

/-- `IGNORE_GOOGLE_MIMES` has the single prefix entry. -/
def GOOGLE_MIME_PREFIX : String := "application/vnd.google-apps."

/-- `IGNORE_GOOGLE_MIMES.some(m => mimeType?.startsWith(m))`: an absent
mimeType is not treated as a native document.  `startsWith` is expressed
character-wise (`List.isPrefixOf` on the code points), which agrees with
`String.prototype.startsWith`. -/
def isNativeDoc : Option String → Bool
  | none => false
  | some s => GOOGLE_MIME_PREFIX.data.isPrefixOf s.data

/-- `path.join(dir, name)` (abstracted). -/
def pathJoin (dir name : String) : String := dir ++ "/" ++ name

/-! ## Binary fetcher -/

/-- `downloadBinary(drive, file, outDir)`: returns early (undefined) when
`id` or `name` is falsy; otherwise opens the output file and streams the
content — a stream/open error is thrown (`Except.error`), success returns
`safeName(file.name)`. The oracle `dl` decides whether the stream of a
given entry completes. -/
def downloadBinary (dl : RemoteEntry → Bool) (f : RemoteEntry) :
    Except Unit (Option String) :=
  if !(jsTruthy f.id) || !(jsTruthy f.name) then .ok none
  else if dl f then .ok (some (safeName (f.name.getD ""))) else .error ()

/-! ## Directory reconciler -/

/-- `!known[f.id] || known[f.id].modifiedTime !== f.modifiedTime`. -/
def needsDownload (known : List (String × FileState)) (f : RemoteEntry)
    (i : String) : Bool :=
  match jget known i with
  | none => true
  | some r => r.modifiedTime != f.modifiedTime

/-- The add/update pass of `syncFolder`: iterate the listing in order,
skip entries with falsy id/name and native-document mime types, download
when `needsDownload`, and upsert the FileRecord on success.  A thrown
download error propagates (there is no try/catch in the source loop).
Returns the updated map together with the list of downloaded entries. -/
def syncAddPass (dl : RemoteEntry → Bool) :
    List RemoteEntry → List (String × FileState) →
    Except Unit (List (String × FileState) × List RemoteEntry)
  | [], known => .ok (known, [])
  | f :: rest, known =>
    if !(jsTruthy f.id) || !(jsTruthy f.name) then
      syncAddPass dl rest known
    else if isNativeDoc f.mimeType then
      syncAddPass dl rest known
    else if needsDownload known f (f.id.getD "") then
      match downloadBinary dl f with
      | .error e => .error e
      | .ok saved =>
        match syncAddPass dl rest (jset known (f.id.getD "")
            { modifiedTime := f.modifiedTime
              name := saved.getD (safeName (f.name.getD ""))
              mimeType := f.mimeType }) with
        | .error e => .error e
        | .ok (known1, ds) => .ok (known1, f :: ds)
    else
      syncAddPass dl rest known

/-- The cleanup pass of `syncFolder`: for each id of `known` (in insertion
order) absent from `driveIds`, unlink the recorded local file — the unlink
outcome `ul` is consulted and discarded (`.catch(() => \x7b\x7d)`) — and delete
the record.  Returns the surviving map and the `(id, localName)` pairs
removed. -/
def syncDeletePass (ul : String → Bool) (localPath : String)
    (driveIds : List (Option String)) :
    List (String × FileState) →
    List (String × FileState) × List (String × String)
  | [] => ([], [])
  | (i, r) :: rest =>
    if driveIds.contains (some i) then
      let res := syncDeletePass ul localPath driveIds rest
      ((i, r) :: res.1, res.2)
    else
      let _ := ul (pathJoin localPath r.name)
      let res := syncDeletePass ul localPath driveIds rest
      (res.1, (i, r.name) :: res.2)

/-- The result of one `syncFolder` call: the updated state, the entries
downloaded, and the `(id, localName)` records removed. -/
structure SyncOutcome where
  state : State
  downloads : List RemoteEntry
  deletions : List (String × String)
deriving Repr, DecidableEq

/-- `if (!state.dirs[key]) state.dirs[key] = \x7b files: \x7b\x7d \x7d`: the dirs
dictionary after ensuring `key` is bound. -/
def stateDirs0 (state : State) (key : String) : List (String × DirectoryState) :=
  if (jget state.dirs key).isSome then state.dirs
  else jset state.dirs key ⟨[]⟩

/-- `const known = state.dirs[key].files` after the ensure step. -/
def stateKnown0 (state : State) (key : String) : List (String × FileState) :=
  ((jget (stateDirs0 state key) key).getD ⟨[]⟩).files

/-- `syncFolder(drive, files, localPath, state, key)`: ensure
`state.dirs[key]` exists, build the authoritative id set from the raw
listing (before any filtering), run the add/update pass then the cleanup
pass, writing the resulting file map back at `key`. -/
def syncFolder (dl : RemoteEntry → Bool) (ul : String → Bool)
    (files : List RemoteEntry) (localPath : String) (state : State)
    (key : String) : Except Unit SyncOutcome :=
  match syncAddPass dl files (stateKnown0 state key) with
  | .error e => .error e
  | .ok (known1, downloads) =>
    let res := syncDeletePass ul localPath (files.map (fun f => f.id)) known1
    .ok ⟨{ dirs := jset (stateDirs0 state key) key ⟨res.1⟩ }, downloads, res.2⟩

/-! ## Orchestrator (`main`) -/

/-- `IGNORED_FOLDERS`. -/
def IGNORED_FOLDERS : List String := ["assets", "cursors", "private"]

/-- The folder mime type tested exactly by `main`. -/
def FOLDER_MIME : String := "application/vnd.google-apps.folder"

/-- `String.prototype.includes(sub)`. -/
def jsIncludes (s sub : String) : Bool :=
  (List.range (s.data.length + 1)).any
    (fun k => sub.data.isPrefixOf (s.data.drop k))

/-- `String.prototype.toLowerCase()` character by character. -/
def jsToLower (s : String) : String := String.mk (s.data.map Char.toLower)

/-- `IGNORED_FOLDERS.some(x => name.toLowerCase().includes(x))`. -/
def isDenylisted (name : String) : Bool :=
  IGNORED_FOLDERS.any (fun x => jsIncludes (jsToLower name) x)

/-- One step of `main`'s partition loop over the root listing: skip items
with falsy name/mimeType; a folder item goes into the `folders` dictionary
unless its lowercased name matches the denylist; any other item is pushed
onto `rootFiles` unless its mime type is a native document. -/
def partitionStep (acc : List (String × Option String) × List RemoteEntry)
    (item : RemoteEntry) : List (String × Option String) × List RemoteEntry :=
  if !(jsTruthy item.name) || !(jsTruthy item.mimeType) then acc
  else if item.mimeType == some FOLDER_MIME then
    if isDenylisted (item.name.getD "") then acc
    else (jset acc.1 (item.name.getD "") item.id, acc.2)
  else if isNativeDoc item.mimeType then acc
  else (acc.1, acc.2 ++ [item])

/-- `main`'s partition of the root listing into retained folders
(`name ↦ id`, insertion-ordered, `item.id!` stored as-is) and loose root
files. -/
def partitionRoot (rootItems : List RemoteEntry) :
    List (String × Option String) × List RemoteEntry :=
  rootItems.foldl partitionStep ([], [])

/-- `PUBLIC_DIR` (abstracted to its leaf name). -/
def PUBLIC_DIR : String := "public"

/-- The reserved key of the synthetic root pseudo-folder. -/
def ROOT_KEY : String := "public-root"

/-- `main`'s per-folder loop: for each retained `[name, id]` pair list the
folder (`listings` is the Remote Listing Client oracle) and reconcile it
into `public/<name>` under key `name`.  Returns the threaded state and the
folder ids that were listed, in order. -/
def runFolders (dl : RemoteEntry → Bool) (ul : String → Bool)
    (listings : Option String → List RemoteEntry) :
    List (String × Option String) → State →
    Except Unit (State × List (Option String))
  | [], st => .ok (st, [])
  | (name, fid) :: rest, st =>
    match syncFolder dl ul (listings fid) (pathJoin PUBLIC_DIR name) st name with
    | .error e => .error e
    | .ok out =>
      match runFolders dl ul listings rest out.state with
      | .error e => .error e
      | .ok res => .ok (res.1, fid :: res.2)

/-- The reconciliation phase of `main`: partition the root listing, sync
every retained folder, then sync the loose root files into `public/` under
the reserved root key.  Returns the final in-memory state (the one
`saveState` persists and the media map is built from) and the listed
folder ids. -/
def runMain (dl : RemoteEntry → Bool) (ul : String → Bool)
    (listings : Option String → List RemoteEntry)
    (rootItems : List RemoteEntry) (state : State) :
    Except Unit (State × List (Option String)) :=
  match runFolders dl ul listings (partitionRoot rootItems).1 state with
  | .error e => .error e
  | .ok res =>
    match syncFolder dl ul (partitionRoot rootItems).2 PUBLIC_DIR res.1
        ROOT_KEY with
    | .error e => .error e
    | .ok out => .ok (out.state, res.2)

/-! ## Index builder (the `mediaMap` loop of `main`) -/

/-- The path a FileRecord contributes under directory key `folder`. -/
def mediaPath (folder : String) (f : FileState) : String :=
  if folder == ROOT_KEY then "/" ++ f.name
  else "/" ++ folder ++ "/" ++ f.name

/-- The `mediaMap` loop: for every `[folder, folderState]` of `state.dirs`
(insertion order), map `Object.values(folderState.files)` (insertion
order) to public paths — root-relative for the reserved root key,
namespaced `/folder/name` otherwise. -/
def buildMediaMap (state : State) : List (String × List String) :=
  state.dirs.map (fun p => (p.1, p.2.files.map (fun q => mediaPath p.1 q.2)))

/-! ## Dictionary lemmas -/

@[simp] theorem jget_nil {α : Type} (k : String) :
    jget ([] : List (String × α)) k = none := rfl

@[simp] theorem jget_cons {α : Type} (a : String) (b : α) (m : List (String × α))
    (k : String) : jget ((a, b) :: m) k = if a == k then some b else jget m k := by
  by_cases h : a == k <;> simp [jget, List.find?_cons, h]

theorem jsetFn_eq {α : Type} (k : String) (v : α) (a : String) (b : α)
    (h : a = k) : jsetFn k v (a, b) = (k, v) := by
  simp [jsetFn, h]

theorem jsetFn_ne {α : Type} (k : String) (v : α) (a : String) (b : α)
    (h : ¬ a = k) : jsetFn k v (a, b) = (a, b) := by
  simp [jsetFn, h]

theorem any_false_jget_none {α : Type} {m : List (String × α)} {k : String}
    (h : m.any (fun p => p.1 == k) = false) : jget m k = none := by
  induction m with
  | nil => rfl
  | cons p rest ih =>
    rcases p with ⟨a, b⟩
    simp only [List.any_cons, Bool.or_eq_false_iff] at h
    rw [jget_cons, if_neg (by simp [h.1]), ih h.2]

theorem jget_map_set {α : Type} (m : List (String × α)) (k : String) (v : α)
    (h : m.any (fun p => p.1 == k) = true) :
    jget (m.map (jsetFn k v)) k = some v := by
  induction m with
  | nil => simp at h
  | cons p rest ih =>
    rcases p with ⟨a, b⟩
    rw [List.map_cons]
    by_cases ha : a = k
    · rw [jsetFn_eq k v a b ha, jget_cons, if_pos (by simp)]
    · rw [jsetFn_ne k v a b ha, jget_cons, if_neg (by simp [ha])]
      apply ih
      simp only [List.any_cons] at h
      rcases Bool.or_eq_true_iff.mp h with h1 | h1
      · exact absurd (eq_of_beq h1) ha
      · exact h1

theorem jget_map_set_ne {α : Type} (m : List (String × α)) (k : String) (v : α)
    (k1 : String) (h : k1 ≠ k) :
    jget (m.map (jsetFn k v)) k1 = jget m k1 := by
  induction m with
  | nil => rfl
  | cons p rest ih =>
    rcases p with ⟨a, b⟩
    rw [List.map_cons]
    by_cases ha : a = k
    · rw [jsetFn_eq k v a b ha, jget_cons, jget_cons,
        if_neg (by simp [Ne.symm h]), if_neg (by simp [ha, Ne.symm h]), ih]
    · rw [jsetFn_ne k v a b ha, jget_cons, jget_cons, ih]

theorem jget_append_self {α : Type} (m : List (String × α)) (k : String) (v : α)
    (h : m.any (fun p => p.1 == k) = false) :
    jget (m ++ [(k, v)]) k = some v := by
  induction m with
  | nil => rw [List.nil_append, jget_cons, if_pos (by simp)]
  | cons p rest ih =>
    rcases p with ⟨a, b⟩
    simp only [List.any_cons, Bool.or_eq_false_iff] at h
    rw [List.cons_append, jget_cons, if_neg (by simp [h.1]), ih h.2]

theorem jget_append_ne {α : Type} (m : List (String × α)) (k : String) (v : α)
    (k1 : String) (h : k1 ≠ k) : jget (m ++ [(k, v)]) k1 = jget m k1 := by
  induction m with
  | nil => rw [List.nil_append, jget_cons, if_neg (by simp [Ne.symm h]), jget_nil]
  | cons p rest ih =>
    rcases p with ⟨a, b⟩
    rw [List.cons_append, jget_cons, jget_cons, ih]

theorem jget_jset_self {α : Type} (m : List (String × α)) (k : String) (v : α) :
    jget (jset m k v) k = some v := by
  unfold jset
  cases h : m.any (fun p => p.1 == k) with
  | true =>
    rw [if_pos rfl]
    exact jget_map_set m k v h
  | false =>
    rw [if_neg (by simp)]
    exact jget_append_self m k v h

theorem jget_jset_ne {α : Type} (m : List (String × α)) (k : String) (v : α)
    (k1 : String) (h : k1 ≠ k) : jget (jset m k v) k1 = jget m k1 := by
  unfold jset
  cases hany : m.any (fun p => p.1 == k) with
  | true =>
    rw [if_pos rfl]
    exact jget_map_set_ne m k v k1 h
  | false =>
    rw [if_neg (by simp)]
    exact jget_append_ne m k v k1 h

theorem jset_jset_same {α : Type} (m : List (String × α)) (k : String) (v w : α) :
    jset (jset m k v) k w = jset m k w := by
  cases hany : m.any (fun p => p.1 == k) with
  | true =>
    have hany2 : (m.map (jsetFn k v)).any (fun p => p.1 == k) = true := by
      rw [List.any_eq_true] at hany ⊢
      obtain ⟨p, hp, hpk⟩ := hany
      refine ⟨jsetFn k v p, List.mem_map_of_mem _ hp, ?_⟩
      rcases p with ⟨a, b⟩
      rw [jsetFn_eq k v a b (eq_of_beq hpk)]
      simp
    have hinner : jset m k v = m.map (jsetFn k v) := by
      unfold jset
      rw [if_pos hany]
    rw [hinner]
    unfold jset
    rw [if_pos hany2, if_pos hany, List.map_map]
    apply List.map_congr_left
    intro p _
    rcases p with ⟨a, b⟩
    by_cases hp : a = k
    · rw [Function.comp_apply, jsetFn_eq k v a b hp, jsetFn_eq k w k v rfl,
        jsetFn_eq k w a b hp]
    · rw [Function.comp_apply, jsetFn_ne k v a b hp, jsetFn_ne k w a b hp]
  | false =>
    have hany2 : ((m ++ [(k, v)]).any (fun p => p.1 == k)) = true := by
      rw [List.any_eq_true]
      exact ⟨(k, v), by simp, by simp⟩
    have hinner : jset m k v = m ++ [(k, v)] := by
      unfold jset
      rw [if_neg (by simp [hany])]
    rw [hinner]
    unfold jset
    rw [if_pos hany2, if_neg (by simp [hany]), List.map_append]
    have hmap : m.map (jsetFn k w) = m := by
      have hid : m.map (jsetFn k w) = m.map id := by
        apply List.map_congr_left
        intro p hp
        rcases p with ⟨a, b⟩
        rw [id_eq]
        refine jsetFn_ne k w a b ?_
        rw [List.any_eq_false] at hany
        simpa using hany (a, b) hp
      rw [hid, List.map_id]
    rw [hmap, List.map_cons, jsetFn_eq k w k v rfl, List.map_nil]

theorem jset_mem {α : Type} (m : List (String × α)) (k : String) (v : α)
    (p : String × α) (h : p ∈ jset m k v) : p = (k, v) ∨ p ∈ m := by
  unfold jset at h
  cases hany : m.any (fun p => p.1 == k) with
  | true =>
    rw [if_pos hany, List.mem_map] at h
    obtain ⟨q, hq, hqe⟩ := h
    rcases q with ⟨a, b⟩
    by_cases hqk : a = k
    · rw [jsetFn_eq k v a b hqk] at hqe
      exact Or.inl hqe.symm
    · rw [jsetFn_ne k v a b hqk] at hqe
      exact Or.inr (hqe ▸ hq)
  | false =>
    rw [if_neg (by simp [hany]), List.mem_append] at h
    rcases h with h | h
    · exact Or.inr h
    · exact Or.inl (by simpa using h)

theorem jget_mem {α : Type} (m : List (String × α)) (k : String) (v : α)
    (h : jget m k = some v) : (k, v) ∈ m := by
  induction m with
  | nil => simp at h
  | cons p rest ih =>
    rcases p with ⟨a, b⟩
    rw [jget_cons] at h
    by_cases ha : (a == k) = true
    · rw [if_pos ha] at h
      have hak := eq_of_beq ha
      cases h
      exact hak ▸ List.mem_cons_self _ _
    · rw [if_neg (by simp [ha])] at h
      exact List.mem_cons_of_mem _ (ih h)

/-! ## State-ensure lemmas -/

theorem stateKnown0_eq (state : State) (key : String) :
    stateKnown0 state key = ((jget state.dirs key).getD ⟨[]⟩).files := by
  unfold stateKnown0 stateDirs0
  cases h : jget state.dirs key with
  | none =>
    rw [if_neg (by simp), jget_jset_self]
    rfl
  | some d =>
    rw [if_pos (by simp), h]

theorem jget_stateDirs0_self (state : State) (key : String) :
    jget (stateDirs0 state key) key = some ⟨stateKnown0 state key⟩ := by
  unfold stateKnown0 stateDirs0
  cases h : jget state.dirs key with
  | none =>
    rw [if_neg (by simp), jget_jset_self]
    rfl
  | some d =>
    rw [if_pos (by simp), h]
    rfl

theorem jget_stateDirs0_ne (state : State) (key k1 : String) (h : k1 ≠ key) :
    jget (stateDirs0 state key) k1 = jget state.dirs k1 := by
  unfold stateDirs0
  cases hk : jget state.dirs key with
  | none => rw [if_neg (by simp), jget_jset_ne _ _ _ _ h]
  | some d => rw [if_pos (by simp)]

/-! ## Deletion-pass lemmas -/

theorem syncDeletePass_kept (ul : String → Bool) (lp : String)
    (ids : List (Option String)) (known : List (String × FileState)) :
    ∀ p ∈ (syncDeletePass ul lp ids known).1, ids.contains (some p.1) = true := by
  induction known with
  | nil => intro p hp; simp [syncDeletePass] at hp
  | cons q rest ih =>
    rcases q with ⟨a, r⟩
    intro p hp
    by_cases ha : ids.contains (some a) = true
    · rw [syncDeletePass, if_pos ha] at hp
      rcases List.mem_cons.mp hp with h | h
      · cases h; exact ha
      · exact ih p h
    · rw [syncDeletePass, if_neg ha] at hp
      exact ih p hp

theorem syncDeletePass_id (ul : String → Bool) (lp : String)
    (ids : List (Option String)) (known : List (String × FileState))
    (h : ∀ p ∈ known, ids.contains (some p.1) = true) :
    syncDeletePass ul lp ids known = (known, []) := by
  induction known with
  | nil => rfl
  | cons q rest ih =>
    rcases q with ⟨a, r⟩
    rw [syncDeletePass, if_pos (h (a, r) (List.mem_cons_self _ _)),
      ih (fun p hp => h p (List.mem_cons_of_mem _ hp))]

theorem syncDeletePass_frame (ul : String → Bool) (lp : String)
    (ids : List (Option String)) (known : List (String × FileState))
    (i : String) (hi : ids.contains (some i) = true) :
    jget (syncDeletePass ul lp ids known).1 i = jget known i := by
  induction known with
  | nil => rfl
  | cons q rest ih =>
    rcases q with ⟨a, r⟩
    by_cases ha : ids.contains (some a) = true
    · rw [syncDeletePass, if_pos ha]
      by_cases hai : a = i
      · simp [jget_cons, hai]
      · rw [jget_cons, jget_cons, if_neg (by simp [hai]), if_neg (by simp [hai]), ih]
    · have hai : ¬ a = i := by
        intro he
        exact ha (he ▸ hi)
      rw [syncDeletePass, if_neg ha, jget_cons, if_neg (by simp [hai])]
      exact ih

theorem syncDeletePass_gone (ul : String → Bool) (lp : String)
    (ids : List (Option String)) (known : List (String × FileState))
    (i : String) (hi : ids.contains (some i) = false) :
    jget (syncDeletePass ul lp ids known).1 i = none := by
  induction known with
  | nil => rfl
  | cons q rest ih =>
    rcases q with ⟨a, r⟩
    by_cases ha : ids.contains (some a) = true
    · have hai : ¬ a = i := by
        intro he
        rw [he, hi] at ha
        exact Bool.false_ne_true ha
      rw [syncDeletePass, if_pos ha, jget_cons, if_neg (by simp [hai])]
      exact ih
    · rw [syncDeletePass, if_neg ha]
      exact ih

theorem syncDeletePass_logged (ul : String → Bool) (lp : String)
    (ids : List (Option String)) (known : List (String × FileState))
    (i : String) (r : FileState) (hi : ids.contains (some i) = false)
    (hr : jget known i = some r) :
    (i, r.name) ∈ (syncDeletePass ul lp ids known).2 := by
  induction known with
  | nil => simp at hr
  | cons q rest ih =>
    rcases q with ⟨a, s⟩
    by_cases hai : a = i
    · subst hai
      rw [jget_cons, if_pos (by simp)] at hr
      cases hr
      rw [syncDeletePass, if_neg (by rw [hi]; simp)]
      exact List.mem_cons_self _ _
    · rw [jget_cons, if_neg (by simp [hai])] at hr
      by_cases ha : ids.contains (some a) = true
      · rw [syncDeletePass, if_pos ha]
        exact ih hr
      · rw [syncDeletePass, if_neg ha]
        exact List.mem_cons_of_mem _ (ih hr)

theorem syncDeletePass_del_ids (ul : String → Bool) (lp : String)
    (ids : List (Option String)) (known : List (String × FileState)) :
    ∀ d ∈ (syncDeletePass ul lp ids known).2, ids.contains (some d.1) = false := by
  induction known with
  | nil => intro d hd; simp [syncDeletePass] at hd
  | cons q rest ih =>
    rcases q with ⟨a, r⟩
    intro d hd
    by_cases ha : ids.contains (some a) = true
    · rw [syncDeletePass, if_pos ha] at hd
      exact ih d hd
    · rw [syncDeletePass, if_neg ha] at hd
      rcases List.mem_cons.mp hd with h | h
      · cases h
        exact Bool.eq_false_iff.mpr ha
      · exact ih d h

theorem syncDeletePass_ul_irrel (ul ul2 : String → Bool) (lp : String)
    (ids : List (Option String)) (known : List (String × FileState)) :
    syncDeletePass ul lp ids known = syncDeletePass ul2 lp ids known := by
  induction known with
  | nil => rfl
  | cons q rest ih =>
    rcases q with ⟨a, r⟩
    by_cases ha : ids.contains (some a) = true
    · rw [syncDeletePass, if_pos ha, syncDeletePass, if_pos ha, ih]
    · rw [syncDeletePass, if_neg ha, syncDeletePass, if_neg ha, ih]

/-! ## Add-pass lemmas -/

/-- The FileRecord upserted for entry `f` after a successful download. -/
def mkRecord (f : RemoteEntry) : FileState :=
  { modifiedTime := f.modifiedTime
    name := safeName (f.name.getD "")
    mimeType := f.mimeType }

theorem needsDownload_congr (k1 k2 : List (String × FileState))
    (f : RemoteEntry) (i : String) (h : jget k1 i = jget k2 i) :
    needsDownload k1 f i = needsDownload k2 f i := by
  unfold needsDownload
  rw [h]

/-- Inversion of one step of the add pass: the head entry is either
skipped by a falsy-field guard, skipped as a native document, found
up-to-date, or downloaded (which requires its stream to succeed). -/
theorem syncAddPass_cons (dl : RemoteEntry → Bool) (f : RemoteEntry)
    (rest : List RemoteEntry) (known known1 : List (String × FileState))
    (ds : List RemoteEntry)
    (hrun : syncAddPass dl (f :: rest) known = .ok (known1, ds)) :
    ((!(jsTruthy f.id) || !(jsTruthy f.name)) = true ∧
       syncAddPass dl rest known = .ok (known1, ds)) ∨
    ((!(jsTruthy f.id) || !(jsTruthy f.name)) = false ∧
       isNativeDoc f.mimeType = true ∧
       syncAddPass dl rest known = .ok (known1, ds)) ∨
    (jsTruthy f.id = true ∧ jsTruthy f.name = true ∧
       isNativeDoc f.mimeType = false ∧
       needsDownload known f (f.id.getD "") = false ∧
       syncAddPass dl rest known = .ok (known1, ds)) ∨
    (jsTruthy f.id = true ∧ jsTruthy f.name = true ∧
       isNativeDoc f.mimeType = false ∧
       needsDownload known f (f.id.getD "") = true ∧ dl f = true ∧
       ∃ ds1, ds = f :: ds1 ∧
         syncAddPass dl rest (jset known (f.id.getD "") (mkRecord f)) =
           .ok (known1, ds1)) := by
  rw [syncAddPass] at hrun
  by_cases h1 : (!(jsTruthy f.id) || !(jsTruthy f.name)) = true
  · rw [if_pos h1] at hrun
    exact Or.inl ⟨h1, hrun⟩
  · have h1f : (!(jsTruthy f.id) || !(jsTruthy f.name)) = false :=
      Bool.eq_false_iff.mpr h1
    have hti : jsTruthy f.id = true := by
      rcases Bool.or_eq_false_iff.mp h1f with ⟨ha, _⟩
      simpa using ha
    have htn : jsTruthy f.name = true := by
      rcases Bool.or_eq_false_iff.mp h1f with ⟨_, hb⟩
      simpa using hb
    rw [if_neg h1] at hrun
    by_cases h2 : isNativeDoc f.mimeType = true
    · rw [if_pos h2] at hrun
      exact Or.inr (Or.inl ⟨h1f, h2, hrun⟩)
    · have h2f : isNativeDoc f.mimeType = false := Bool.eq_false_iff.mpr h2
      rw [if_neg h2] at hrun
      by_cases h3 : needsDownload known f (f.id.getD "") = true
      · rw [if_pos h3] at hrun
        rw [downloadBinary, if_neg (by rw [h1f]; simp)] at hrun
        cases hdl : dl f with
        | false =>
          rw [if_neg (by rw [hdl]; simp)] at hrun
          dsimp only at hrun
          exact absurd hrun (by simp)
        | true =>
          rw [if_pos hdl] at hrun
          dsimp only at hrun
          cases hrec : syncAddPass dl rest (jset known (f.id.getD "")
              { modifiedTime := f.modifiedTime
                name := (some (safeName (f.name.getD ""))).getD
                  (safeName (f.name.getD ""))
                mimeType := f.mimeType }) with
          | error e =>
            rw [hrec] at hrun
            exact absurd hrun (by simp)
          | ok val =>
            rcases val with ⟨k1, ds1⟩
            rw [hrec] at hrun
            dsimp only at hrun
            have hknown : known1 = k1 := by
              cases hrun
              rfl
            have hds : ds = f :: ds1 := by
              cases hrun
              rfl
            refine Or.inr (Or.inr (Or.inr ⟨hti, htn, h2f, h3, rfl, ds1, hds, ?_⟩))
            rw [hknown]
            simpa [mkRecord] using hrec
      · have h3f : needsDownload known f (f.id.getD "") = false :=
          Bool.eq_false_iff.mpr h3
        rw [if_neg h3] at hrun
        exact Or.inr (Or.inr (Or.inl ⟨hti, htn, h2f, h3f, hrun⟩))

theorem jsTruthy_some {o : Option String} (h : jsTruthy o = true) :
    ∃ s, o = some s ∧ ¬ s = "" := by
  cases o with
  | none => simp [jsTruthy] at h
  | some s => exact ⟨s, rfl, by simpa [jsTruthy] using h⟩

theorem nodup_filterMap_tail {α β : Type} {x : α} {rest : List α}
    {f : α → Option β} (hnd : ((x :: rest).filterMap f).Nodup) :
    (rest.filterMap f).Nodup := by
  rw [List.filterMap_cons] at hnd
  cases hfx : f x with
  | none => rw [hfx] at hnd; exact hnd
  | some w => rw [hfx] at hnd; exact (List.nodup_cons.mp hnd).2

theorem nodup_filterMap_head {α β : Type} {x : α} {rest : List α}
    {f : α → Option β} {v : β} (hnd : ((x :: rest).filterMap f).Nodup)
    (hfx : f x = some v) : ∀ b ∈ rest, f b ≠ some v := by
  intro b hb hfb
  rw [List.filterMap_cons, hfx] at hnd
  exact (List.nodup_cons.mp hnd).1 (List.mem_filterMap.mpr ⟨b, hb, hfb⟩)

theorem nodup_filterMap_inj {α β : Type} {l : List α} {f : α → Option β}
    (hnd : (l.filterMap f).Nodup) {a b : α} {v : β}
    (ha : a ∈ l) (hb : b ∈ l) (hfa : f a = some v) (hfb : f b = some v) :
    a = b := by
  induction l with
  | nil => simp at ha
  | cons x rest ih =>
    rcases List.mem_cons.mp ha with h1 | h1
    · rcases List.mem_cons.mp hb with h2 | h2
      · rw [h1, h2]
      · subst h1
        exact absurd hfb (nodup_filterMap_head hnd hfa b h2)
    · rcases List.mem_cons.mp hb with h2 | h2
      · subst h2
        exact absurd hfa (nodup_filterMap_head hnd hfb a h1)
      · exact ih (nodup_filterMap_tail hnd) h1 h2

/-- Frame property of the add pass: if every listed entry carrying id `i`
is skipped by the guards, then the binding at `i` is untouched and no
download has id `i`. -/
theorem syncAddPass_frame (dl : RemoteEntry → Bool) (files : List RemoteEntry)
    (known known1 : List (String × FileState)) (ds : List RemoteEntry)
    (i : String) (hrun : syncAddPass dl files known = .ok (known1, ds))
    (hskip : ∀ g ∈ files, g.id = some i →
      jsTruthy g.id = false ∨ jsTruthy g.name = false ∨
      isNativeDoc g.mimeType = true) :
    jget known1 i = jget known i ∧ ∀ g ∈ ds, g.id ≠ some i := by
  induction files generalizing known ds with
  | nil =>
    rw [syncAddPass] at hrun
    cases hrun
    exact ⟨rfl, by simp⟩
  | cons f rest ih =>
    have hskip1 : ∀ g ∈ rest, g.id = some i →
        jsTruthy g.id = false ∨ jsTruthy g.name = false ∨
        isNativeDoc g.mimeType = true :=
      fun g hg => hskip g (List.mem_cons_of_mem _ hg)
    rcases syncAddPass_cons _ _ _ _ _ _ hrun with
      ⟨hg, hrec⟩ | ⟨hg, hnat, hrec⟩ | ⟨hti, htn, hnat, hnd, hrec⟩ |
      ⟨hti, htn, hnat, hnd, hdl, ds1, hds, hrec⟩
    · exact ih _ _ hrec hskip1
    · exact ih _ _ hrec hskip1
    · exact ih _ _ hrec hskip1
    · obtain ⟨j, hj, hjne⟩ := jsTruthy_some hti
      have hji : ¬ j = i := by
        intro he
        rcases hskip f (List.mem_cons_self _ _) (he ▸ hj) with h | h | h
        · rw [hti] at h; exact Bool.true_eq_false ▸ absurd h (by simp)
        · rw [htn] at h; exact absurd h (by simp)
        · rw [hnat] at h; exact absurd h (by simp)
      have hgetd : f.id.getD "" = j := by rw [hj]; rfl
      rw [hgetd] at hrec
      obtain ⟨hframe, hds1⟩ := ih _ _ hrec hskip1
      refine ⟨?_, ?_⟩
      · rw [hframe, jget_jset_ne _ _ _ _ (fun he => hji he.symm)]
      · intro g hg
        rw [hds] at hg
        rcases List.mem_cons.mp hg with h | h
        · subst h
          rw [hj]
          intro he
          exact hji (by injection he)
        · exact hds1 g h

/-- Every downloaded entry comes from the listing and passed the guards. -/
theorem syncAddPass_downloads (dl : RemoteEntry → Bool)
    (files : List RemoteEntry) (known known1 : List (String × FileState))
    (ds : List RemoteEntry)
    (hrun : syncAddPass dl files known = .ok (known1, ds)) :
    ∀ g ∈ ds, g ∈ files ∧ jsTruthy g.id = true ∧ jsTruthy g.name = true ∧
      isNativeDoc g.mimeType = false := by
  induction files generalizing known ds with
  | nil =>
    rw [syncAddPass] at hrun
    cases hrun
    intro g hg
    simp at hg
  | cons f rest ih =>
    rcases syncAddPass_cons _ _ _ _ _ _ hrun with
      ⟨hg, hrec⟩ | ⟨hg, hnat, hrec⟩ | ⟨hti, htn, hnat, hnd, hrec⟩ |
      ⟨hti, htn, hnat, hnd, hdl, ds1, hds, hrec⟩
    · intro g hgm
      obtain ⟨h1, h2⟩ := ih _ _ hrec g hgm
      exact ⟨List.mem_cons_of_mem _ h1, h2⟩
    · intro g hgm
      obtain ⟨h1, h2⟩ := ih _ _ hrec g hgm
      exact ⟨List.mem_cons_of_mem _ h1, h2⟩
    · intro g hgm
      obtain ⟨h1, h2⟩ := ih _ _ hrec g hgm
      exact ⟨List.mem_cons_of_mem _ h1, h2⟩
    · intro g hgm
      rw [hds] at hgm
      rcases List.mem_cons.mp hgm with h | h
      · subst h
        exact ⟨List.mem_cons_self _ _, hti, htn, hnat⟩
      · obtain ⟨h1, h2⟩ := ih _ _ hrec g h
        exact ⟨List.mem_cons_of_mem _ h1, h2⟩

theorem filter_id_eq_nil {ds : List RemoteEntry} {i : String}
    (h : ∀ g ∈ ds, g.id ≠ some i) :
    ds.filter (fun g => g.id == some i) = [] := by
  induction ds with
  | nil => rfl
  | cons g rest ih =>
    rw [List.filter_cons,
      if_neg (by simpa using h g (List.mem_cons_self _ _))]
    exact ih (fun g hg => h g (List.mem_cons_of_mem _ hg))

/-- Per-entry tracking through the add pass (listing ids pairwise
distinct): a valid entry is downloaded exactly when `needsDownload` held
of the map at entry to the pass, and its final binding is the upserted
record (on download) or the untouched prior binding (otherwise). -/
theorem syncAddPass_tracked (dl : RemoteEntry → Bool)
    (files : List RemoteEntry) (known known1 : List (String × FileState))
    (ds : List RemoteEntry) (f : RemoteEntry) (i : String)
    (hnd : (files.filterMap (fun g => g.id)).Nodup)
    (hrun : syncAddPass dl files known = .ok (known1, ds))
    (hf : f ∈ files) (hid : f.id = some i)
    (hti : jsTruthy f.id = true) (htn : jsTruthy f.name = true)
    (hnat : isNativeDoc f.mimeType = false) :
    (needsDownload known f i = true →
      ds.filter (fun g => g.id == some i) = [f] ∧
      jget known1 i = some (mkRecord f)) ∧
    (needsDownload known f i = false →
      ds.filter (fun g => g.id == some i) = [] ∧
      jget known1 i = jget known i) := by
  induction files generalizing known ds with
  | nil => simp at hf
  | cons g rest ih =>
    rcases List.mem_cons.mp hf with hfg | hfr
    · -- `f` is the head entry
      subst hfg
      have hgetd : f.id.getD "" = i := by rw [hid]; rfl
      have hrestskip : ∀ g1 ∈ rest, g1.id ≠ some i :=
        nodup_filterMap_head hnd hid
      rcases syncAddPass_cons _ _ _ _ _ _ hrun with
        ⟨hg, hrec⟩ | ⟨hg, hnat1, hrec⟩ | ⟨hti1, htn1, hnat1, hnd1, hrec⟩ |
        ⟨hti1, htn1, hnat1, hnd1, hdl, ds1, hds, hrec⟩
      · rw [hti, htn] at hg
        simp at hg
      · rw [hnat1] at hnat
        exact absurd hnat (by simp)
      · rw [hgetd] at hnd1
        obtain ⟨hframe, hnone⟩ := syncAddPass_frame _ _ _ _ _ _ hrec
          (fun g1 hg1 hgi => absurd hgi (hrestskip g1 hg1))
        refine ⟨fun h => absurd h (by rw [hnd1]; simp), fun _ => ?_⟩
        exact ⟨filter_id_eq_nil hnone, hframe⟩
      · rw [hgetd] at hnd1 hrec
        obtain ⟨hframe, hnone⟩ := syncAddPass_frame _ _ _ _ _ _ hrec
          (fun g1 hg1 hgi => absurd hgi (hrestskip g1 hg1))
        refine ⟨fun _ => ?_, fun h => absurd h (by rw [hnd1]; simp)⟩
        constructor
        · rw [hds, List.filter_cons, if_pos (by rw [hid]; simp)]
          rw [filter_id_eq_nil hnone]
        · rw [hframe, jget_jset_self]
    · -- `f` is further down the listing
      have hndtail : (rest.filterMap (fun g => g.id)).Nodup :=
        nodup_filterMap_tail hnd
      rcases syncAddPass_cons _ _ _ _ _ _ hrun with
        ⟨hg, hrec⟩ | ⟨hg, hnat1, hrec⟩ | ⟨hti1, htn1, hnat1, hnd1, hrec⟩ |
        ⟨hti1, htn1, hnat1, hnd1, hdl, ds1, hds, hrec⟩
      · exact ih _ _ hndtail hrec hfr
      · exact ih _ _ hndtail hrec hfr
      · exact ih _ _ hndtail hrec hfr
      · -- the head entry `g` was downloaded; its id differs from `i`
        obtain ⟨j, hj, hjne⟩ := jsTruthy_some hti1
        have hji : ¬ j = i := by
          intro he
          exact nodup_filterMap_head hnd (by rw [hj, he]) f hfr hid
        have hgetd : g.id.getD "" = j := by rw [hj]; rfl
        rw [hgetd] at hrec
        have hjget : jget (jset known j (mkRecord g)) i = jget known i :=
          jget_jset_ne _ _ _ _ (fun he => hji he.symm)
        have hcongr : needsDownload (jset known j (mkRecord g)) f i =
            needsDownload known f i := needsDownload_congr _ _ _ _ hjget
        obtain ⟨htrue, hfalse⟩ := ih _ _ hndtail hrec hfr
        rw [hcongr] at htrue hfalse
        rw [hjget] at hfalse
        have hgfilter : (g.id == some i) = false := by
          rw [hj]
          simpa using hji
        constructor
        · intro h
          obtain ⟨h1, h2⟩ := htrue h
          refine ⟨?_, h2⟩
          rw [hds, List.filter_cons, if_neg (by rw [hgfilter]; simp), h1]
        · intro h
          obtain ⟨h1, h2⟩ := hfalse h
          refine ⟨?_, h2⟩
          rw [hds, List.filter_cons, if_neg (by rw [hgfilter]; simp), h1]

theorem needsDownload_false_inv {known : List (String × FileState)}
    {f : RemoteEntry} {i : String} (h : needsDownload known f i = false) :
    ∃ r, jget known i = some r ∧ r.modifiedTime = f.modifiedTime := by
  unfold needsDownload at h
  cases hj : jget known i with
  | none => rw [hj] at h; simp at h
  | some r =>
    rw [hj] at h
    exact ⟨r, rfl, by simpa using h⟩

theorem needsDownload_iff (known : List (String × FileState))
    (f : RemoteEntry) (i : String) :
    needsDownload known f i = true ↔
      (jget known i = none ∨
        ∃ r, jget known i = some r ∧ r.modifiedTime ≠ f.modifiedTime) := by
  unfold needsDownload
  cases hj : jget known i with
  | none => simp
  | some r => simp

/-- If every valid entry is already up to date, the add pass is a no-op:
no download is even attempted, whatever the download oracle says. -/
theorem syncAddPass_noop (dl : RemoteEntry → Bool) (files : List RemoteEntry)
    (known : List (String × FileState))
    (h : ∀ f ∈ files, jsTruthy f.id = true → jsTruthy f.name = true →
      isNativeDoc f.mimeType = false →
      needsDownload known f (f.id.getD "") = false) :
    syncAddPass dl files known = .ok (known, []) := by
  induction files with
  | nil => rfl
  | cons f rest ih =>
    have htail : ∀ g ∈ rest, jsTruthy g.id = true → jsTruthy g.name = true →
        isNativeDoc g.mimeType = false →
        needsDownload known g (g.id.getD "") = false :=
      fun g hg => h g (List.mem_cons_of_mem _ hg)
    rw [syncAddPass]
    by_cases h1 : (!(jsTruthy f.id) || !(jsTruthy f.name)) = true
    · rw [if_pos h1]
      exact ih htail
    · have h1f : (!(jsTruthy f.id) || !(jsTruthy f.name)) = false :=
        Bool.eq_false_iff.mpr h1
      have hti : jsTruthy f.id = true := by
        rcases Bool.or_eq_false_iff.mp h1f with ⟨ha, _⟩
        simpa using ha
      have htn : jsTruthy f.name = true := by
        rcases Bool.or_eq_false_iff.mp h1f with ⟨_, hb⟩
        simpa using hb
      rw [if_neg h1]
      by_cases h2 : isNativeDoc f.mimeType = true
      · rw [if_pos h2]
        exact ih htail
      · rw [if_neg h2,
          if_neg (by rw [h f (List.mem_cons_self _ _) hti htn
            (Bool.eq_false_iff.mpr h2)]; simp)]
        exact ih htail

/-! ## syncFolder inversion -/

theorem syncFolder_inv (dl : RemoteEntry → Bool) (ul : String → Bool)
    (files : List RemoteEntry) (lp : String) (state : State) (key : String)
    (out : SyncOutcome)
    (hrun : syncFolder dl ul files lp state key = .ok out) :
    ∃ known1,
      syncAddPass dl files (stateKnown0 state key) =
        .ok (known1, out.downloads) ∧
      out.state = ⟨jset (stateDirs0 state key) key
        ⟨(syncDeletePass ul lp (files.map (fun f => f.id)) known1).1⟩⟩ ∧
      out.deletions =
        (syncDeletePass ul lp (files.map (fun f => f.id)) known1).2 := by
  unfold syncFolder at hrun
  cases hadd : syncAddPass dl files (stateKnown0 state key) with
  | error e =>
    rw [hadd] at hrun
    exact absurd hrun (by simp)
  | ok val =>
    rcases val with ⟨known1, ds⟩
    rw [hadd] at hrun
    dsimp only at hrun
    cases hrun
    exact ⟨known1, rfl, rfl, rfl⟩

theorem contains_of_mem {α : Type} [BEq α] [LawfulBEq α] {l : List α} {a : α}
    (h : a ∈ l) : l.contains a = true :=
  List.elem_eq_true_of_mem h

theorem needsDownload_false_of {known : List (String × FileState)}
    {f : RemoteEntry} {i : String} {r : FileState}
    (hj : jget known i = some r) (hmt : r.modifiedTime = f.modifiedTime) :
    needsDownload known f i = false := by
  unfold needsDownload
  rw [hj]
  simp [hmt]

theorem needsDownload_false_iff {known : List (String × FileState)}
    {f : RemoteEntry} {i : String} :
    needsDownload known f i = false ↔
      ∃ r, jget known i = some r ∧ r.modifiedTime = f.modifiedTime :=
  ⟨needsDownload_false_inv, fun ⟨_, h1, h2⟩ => needsDownload_false_of h1 h2⟩

/-- The file map stored at `key` after a successful `syncFolder` run is
the deletion-pass result of the add-pass result. -/
theorem syncFolder_final (dl : RemoteEntry → Bool) (ul : String → Bool)
    (files : List RemoteEntry) (lp : String) (state : State) (key : String)
    (out : SyncOutcome)
    (hrun : syncFolder dl ul files lp state key = .ok out) :
    ∃ known1,
      syncAddPass dl files (stateKnown0 state key) =
        .ok (known1, out.downloads) ∧
      stateKnown0 out.state key =
        (syncDeletePass ul lp (files.map (fun f => f.id)) known1).1 ∧
      out.deletions =
        (syncDeletePass ul lp (files.map (fun f => f.id)) known1).2 := by
  obtain ⟨known1, hadd, hstate, hdel⟩ := syncFolder_inv _ _ _ _ _ _ _ hrun
  refine ⟨known1, hadd, ?_, hdel⟩
  rw [stateKnown0_eq, hstate, jget_jset_self]
  rfl

theorem syncFolder_frame (dl : RemoteEntry → Bool) (ul : String → Bool)
    (files : List RemoteEntry) (lp : String) (state : State) (key : String)
    (out : SyncOutcome) (k : String)
    (hrun : syncFolder dl ul files lp state key = .ok out) (hk : k ≠ key) :
    jget out.state.dirs k = jget state.dirs k := by
  obtain ⟨known1, _, hstate, _⟩ := syncFolder_inv _ _ _ _ _ _ _ hrun
  rw [hstate]
  show jget (jset (stateDirs0 state key) key _) k = jget state.dirs k
  rw [jget_jset_ne _ _ _ _ hk, jget_stateDirs0_ne _ _ _ hk]

theorem syncFolder_ul_irrel (dl : RemoteEntry → Bool) (ul ul2 : String → Bool)
    (files : List RemoteEntry) (lp : String) (state : State) (key : String) :
    syncFolder dl ul files lp state key = syncFolder dl ul2 files lp state key := by
  unfold syncFolder
  cases hadd : syncAddPass dl files (stateKnown0 state key) with
  | error e => rfl
  | ok val =>
    rcases val with ⟨known1, ds⟩
    dsimp only
    rw [syncDeletePass_ul_irrel ul ul2]

theorem jget_map_keyed {α β : Type} (l : List (String × α))
    (g : String → α → β) (k : String) :
    jget (l.map (fun p => (p.1, g p.1 p.2))) k = (jget l k).map (g k) := by
  induction l with
  | nil => rfl
  | cons p rest ih =>
    rcases p with ⟨a, b⟩
    rw [List.map_cons, jget_cons, jget_cons]
    by_cases ha : (a == k) = true
    · rw [if_pos ha, if_pos ha, eq_of_beq ha]
      rfl
    · rw [if_neg ha, if_neg ha, ih]

theorem jget_buildMediaMap (state : State) (k : String) :
    jget (buildMediaMap state) k =
      (jget state.dirs k).map (fun d => d.files.map (fun q => mediaPath k q.2)) := by
  unfold buildMediaMap
  exact jget_map_keyed state.dirs (fun a d => d.files.map (fun q => mediaPath a q.2)) k

/-! ## Claim theorems -/

/-- C2. Reconciliation is idempotent: if one `syncFolder` run over a
listing (with pairwise-distinct entry ids, as Drive guarantees) succeeds
and produces `out`, then running `syncFolder` again on the same listing
from `out.state` performs no downloads (whatever the download oracle) and
no deletions, and returns `out.state` unchanged. -/
theorem c2_syncFolder_idempotent (dl dl2 : RemoteEntry → Bool)
    (ul ul2 : String → Bool) (files : List RemoteEntry) (lp : String)
    (state : State) (key : String) (out : SyncOutcome)
    (hnd : (files.filterMap (fun g => g.id)).Nodup)
    (hrun : syncFolder dl ul files lp state key = .ok out) :
    syncFolder dl2 ul2 files lp out.state key = .ok ⟨out.state, [], []⟩ := by
  obtain ⟨known1, hadd, hstate, hdel⟩ := syncFolder_inv _ _ _ _ _ _ _ hrun
  have hjout : jget out.state.dirs key =
      some ⟨(syncDeletePass ul lp (files.map (fun f => f.id)) known1).1⟩ := by
    rw [hstate]
    exact jget_jset_self _ _ _
  have hsk : stateKnown0 out.state key =
      (syncDeletePass ul lp (files.map (fun f => f.id)) known1).1 := by
    rw [stateKnown0_eq, hjout]
    rfl
  have hsd : stateDirs0 out.state key = out.state.dirs := by
    unfold stateDirs0
    rw [if_pos (by rw [hjout]; rfl)]
  have hupdated : ∀ f ∈ files, jsTruthy f.id = true → jsTruthy f.name = true →
      isNativeDoc f.mimeType = false →
      needsDownload (syncDeletePass ul lp (files.map (fun f => f.id)) known1).1
        f (f.id.getD "") = false := by
    intro f hf hti htn hnat
    obtain ⟨i, hid, _⟩ := jsTruthy_some hti
    have hgetd : f.id.getD "" = i := by rw [hid]; rfl
    rw [hgetd]
    have hcontains : (files.map (fun f => f.id)).contains (some i) = true :=
      contains_of_mem (by rw [← hid]; exact List.mem_map_of_mem _ hf)
    obtain ⟨r, hr, hrmt⟩ :
        ∃ r, jget known1 i = some r ∧ r.modifiedTime = f.modifiedTime := by
      obtain ⟨htrue, hfalse⟩ := syncAddPass_tracked dl files _ known1
        out.downloads f i hnd hadd hf hid hti htn hnat
      cases hcase : needsDownload (stateKnown0 state key) f i with
      | true => exact ⟨mkRecord f, (htrue hcase).2, rfl⟩
      | false =>
        obtain ⟨_, h2⟩ := hfalse hcase
        obtain ⟨r, hr0, hrmt0⟩ := needsDownload_false_inv hcase
        exact ⟨r, by rw [h2, hr0], hrmt0⟩
    have hk2 : jget (syncDeletePass ul lp (files.map (fun f => f.id)) known1).1
        i = some r := by
      rw [syncDeletePass_frame _ _ _ _ _ hcontains, hr]
    exact needsDownload_false_of hk2 hrmt
  have haddpass2 : syncAddPass dl2 files (stateKnown0 out.state key) =
      .ok ((syncDeletePass ul lp (files.map (fun f => f.id)) known1).1, []) := by
    rw [hsk]
    exact syncAddPass_noop _ _ _ hupdated
  have hdelpass2 : syncDeletePass ul2 lp (files.map (fun f => f.id))
      (syncDeletePass ul lp (files.map (fun f => f.id)) known1).1 =
      ((syncDeletePass ul lp (files.map (fun f => f.id)) known1).1, []) :=
    syncDeletePass_id _ _ _ _
      (fun p hp => syncDeletePass_kept ul lp _ known1 p hp)
  unfold syncFolder
  rw [haddpass2]
  dsimp only
  rw [hdelpass2]
  dsimp only
  rw [hsd, hstate, jset_jset_same]

/-- C3. For a non-filtered remote entry (truthy id and name, non-native
mime type; listing ids pairwise distinct) in a successful `syncFolder`
run: a download of that entry happens exactly when no FileRecord exists
for its id or the stored `modifiedTime` differs by exact inequality; no
download happens exactly when a record with the exact same `modifiedTime`
exists; and after a download the FileRecord holds the sanitized local
name, the entry's `modifiedTime`, and its contentType. -/
theorem c3_download_iff_changed (dl : RemoteEntry → Bool) (ul : String → Bool)
    (files : List RemoteEntry) (lp : String) (state : State) (key : String)
    (out : SyncOutcome) (f : RemoteEntry) (i n : String)
    (hnd : (files.filterMap (fun g => g.id)).Nodup)
    (hf : f ∈ files) (hid : f.id = some i) (hname : f.name = some n)
    (hti : jsTruthy f.id = true) (htn : jsTruthy f.name = true)
    (hnat : isNativeDoc f.mimeType = false)
    (hrun : syncFolder dl ul files lp state key = .ok out) :
    (out.downloads.filter (fun g => g.id == some i) = [f] ↔
      (jget (stateKnown0 state key) i = none ∨
        ∃ r, jget (stateKnown0 state key) i = some r ∧
          r.modifiedTime ≠ f.modifiedTime)) ∧
    (out.downloads.filter (fun g => g.id == some i) = [] ↔
      ∃ r, jget (stateKnown0 state key) i = some r ∧
        r.modifiedTime = f.modifiedTime) ∧
    (out.downloads.filter (fun g => g.id == some i) = [f] →
      jget (stateKnown0 out.state key) i =
        some ⟨f.modifiedTime, safeName n, f.mimeType⟩) := by
  obtain ⟨known1, hadd, hsk, hdel⟩ := syncFolder_final _ _ _ _ _ _ _ hrun
  obtain ⟨htrue, hfalse⟩ := syncAddPass_tracked dl files _ known1
    out.downloads f i hnd hadd hf hid hti htn hnat
  have hcontains : (files.map (fun f => f.id)).contains (some i) = true :=
    contains_of_mem (by rw [← hid]; exact List.mem_map_of_mem _ hf)
  have hmk : mkRecord f = ⟨f.modifiedTime, safeName n, f.mimeType⟩ := by
    unfold mkRecord
    rw [hname]
    rfl
  cases hcase : needsDownload (stateKnown0 state key) f i with
  | true =>
    obtain ⟨h1, h2⟩ := htrue hcase
    refine ⟨⟨fun _ => (needsDownload_iff _ _ _).mp hcase, fun _ => h1⟩,
      ⟨fun he => ?_, fun hex => ?_⟩, fun _ => ?_⟩
    · rw [h1] at he
      cases he
    · rw [needsDownload_false_iff.mpr hex] at hcase
      cases hcase
    · rw [hsk, syncDeletePass_frame _ _ _ _ _ hcontains, h2, hmk]
  | false =>
    obtain ⟨h1, h2⟩ := hfalse hcase
    obtain ⟨r, hr, hrmt⟩ := needsDownload_false_inv hcase
    refine ⟨⟨fun he => ?_, fun htr => ?_⟩,
      ⟨fun _ => ⟨r, hr, hrmt⟩, fun _ => h1⟩, fun he => ?_⟩
    · rw [h1] at he
      cases he
    · rw [(needsDownload_iff _ _ _).mpr htr] at hcase
      cases hcase
    · rw [h1] at he
      cases he

/-- C4. A remote entry whose id already has a FileRecord with the exact
same stored `modifiedTime` (listing ids pairwise distinct) is not
downloaded, and its FileRecord — in particular its original sanitized
`localName`, even if the remote `name` changed — survives a successful
`syncFolder` run entirely unchanged. -/
theorem c4_unchanged_entry_untouched (dl : RemoteEntry → Bool)
    (ul : String → Bool) (files : List RemoteEntry) (lp : String)
    (state : State) (key : String) (out : SyncOutcome) (f : RemoteEntry)
    (i : String) (r : FileState)
    (hnd : (files.filterMap (fun g => g.id)).Nodup)
    (hf : f ∈ files) (hid : f.id = some i)
    (hr : jget (stateKnown0 state key) i = some r)
    (hrmt : r.modifiedTime = f.modifiedTime)
    (hrun : syncFolder dl ul files lp state key = .ok out) :
    (∀ g ∈ out.downloads, g.id ≠ some i) ∧
    jget (stateKnown0 out.state key) i = some r := by
  obtain ⟨known1, hadd, hsk, hdel⟩ := syncFolder_final _ _ _ _ _ _ _ hrun
  have hcontains : (files.map (fun f => f.id)).contains (some i) = true :=
    contains_of_mem (by rw [← hid]; exact List.mem_map_of_mem _ hf)
  have hknown1 : jget known1 i = some r ∧ ∀ g ∈ out.downloads, g.id ≠ some i := by
    by_cases hval : jsTruthy f.id = true ∧ jsTruthy f.name = true ∧
        isNativeDoc f.mimeType = false
    · obtain ⟨hti, htn, hnat⟩ := hval
      obtain ⟨_, hfalse⟩ := syncAddPass_tracked dl files _ known1
        out.downloads f i hnd hadd hf hid hti htn hnat
      obtain ⟨h1, h2⟩ := hfalse (needsDownload_false_of hr hrmt)
      refine ⟨by rw [h2, hr], fun g hg hgi => ?_⟩
      have : g ∈ out.downloads.filter (fun g => g.id == some i) :=
        List.mem_filter.mpr ⟨hg, by rw [hgi]; simp⟩
      rw [h1] at this
      cases this
    · have hskip : ∀ g ∈ files, g.id = some i →
          jsTruthy g.id = false ∨ jsTruthy g.name = false ∨
          isNativeDoc g.mimeType = true := by
        intro g hg hgi
        have hgf : g = f := nodup_filterMap_inj hnd hg hf hgi hid
        subst hgf
        by_cases h1 : jsTruthy g.id = true
        · by_cases h2 : jsTruthy g.name = true
          · by_cases h3 : isNativeDoc g.mimeType = true
            · exact Or.inr (Or.inr h3)
            · exact absurd ⟨h1, h2, Bool.eq_false_iff.mpr h3⟩ hval
          · exact Or.inr (Or.inl (Bool.eq_false_iff.mpr h2))
        · exact Or.inl (Bool.eq_false_iff.mpr h1)
      obtain ⟨h1, h2⟩ := syncAddPass_frame _ _ _ _ _ _ hadd hskip
      exact ⟨by rw [h1, hr], h2⟩
  refine ⟨hknown1.2, ?_⟩
  rw [hsk, syncDeletePass_frame _ _ _ _ _ hcontains, hknown1.1]

/-- C5. Deletion pass of a successful `syncFolder` run: a FileRecord
whose id is absent from the raw listing's id set is removed from state and
its recorded `localName` is unlinked (the unlink outcome never affects the
run — a missing file on disk is tolerated); records whose id appears in
the listing are never deleted. -/
theorem c5_deletion_pass (dl : RemoteEntry → Bool) (ul : String → Bool)
    (files : List RemoteEntry) (lp : String) (state : State) (key : String)
    (out : SyncOutcome) (i : String)
    (hrun : syncFolder dl ul files lp state key = .ok out) :
    (∀ r, (files.map (fun f => f.id)).contains (some i) = false →
      jget (stateKnown0 state key) i = some r →
      ((i, r.name) ∈ out.deletions ∧
        jget (stateKnown0 out.state key) i = none)) ∧
    ((files.map (fun f => f.id)).contains (some i) = true →
      ∀ d ∈ out.deletions, d.1 ≠ i) ∧
    (∀ ul2, syncFolder dl ul2 files lp state key = .ok out) := by
  obtain ⟨known1, hadd, hsk, hdel⟩ := syncFolder_final _ _ _ _ _ _ _ hrun
  refine ⟨?_, ?_, ?_⟩
  · intro r hnc hr
    have hnone : ∀ g ∈ files, g.id = some i →
        jsTruthy g.id = false ∨ jsTruthy g.name = false ∨
        isNativeDoc g.mimeType = true := by
      intro g hg hgi
      have : (files.map (fun f => f.id)).contains (some i) = true :=
        contains_of_mem (by rw [← hgi]; exact List.mem_map_of_mem _ hg)
      rw [hnc] at this
      cases this
    obtain ⟨hframe, _⟩ := syncAddPass_frame _ _ _ _ _ _ hadd hnone
    have hk1 : jget known1 i = some r := by rw [hframe, hr]
    constructor
    · rw [hdel]
      exact syncDeletePass_logged _ _ _ _ _ _ hnc hk1
    · rw [hsk]
      exact syncDeletePass_gone _ _ _ _ _ hnc
  · intro hc d hd hdi
    have := syncDeletePass_del_ids ul lp (files.map (fun f => f.id)) known1 d
      (hdel ▸ hd)
    rw [hdi, hc] at this
    cases this
  · intro ul2
    rw [← syncFolder_ul_irrel dl ul ul2]
    exact hrun

/-- C10. The deletion pass's authoritative id set is built from the raw
listing before any filtering: a FileRecord whose id is carried by a listed
entry that the add pass skips (falsy id or name, or native-document mime
type; listing ids pairwise distinct) survives a successful run unchanged —
no download with its id, no deletion of its id, and its path still appears
in the media index generated from the final state. -/
theorem c10_skipped_entry_shields_record (dl : RemoteEntry → Bool)
    (ul : String → Bool) (files : List RemoteEntry) (lp : String)
    (state : State) (key : String) (out : SyncOutcome) (f : RemoteEntry)
    (i : String) (r : FileState)
    (hnd : (files.filterMap (fun g => g.id)).Nodup)
    (hf : f ∈ files) (hid : f.id = some i)
    (hskipf : jsTruthy f.id = false ∨ jsTruthy f.name = false ∨
      isNativeDoc f.mimeType = true)
    (hr : jget (stateKnown0 state key) i = some r)
    (hrun : syncFolder dl ul files lp state key = .ok out) :
    jget (stateKnown0 out.state key) i = some r ∧
    (∀ g ∈ out.downloads, g.id ≠ some i) ∧
    (∀ d ∈ out.deletions, d.1 ≠ i) ∧
    mediaPath key r ∈ (jget (buildMediaMap out.state) key).getD [] := by
  obtain ⟨known1, hadd, hsk, hdel⟩ := syncFolder_final _ _ _ _ _ _ _ hrun
  have hcontains : (files.map (fun f => f.id)).contains (some i) = true :=
    contains_of_mem (by rw [← hid]; exact List.mem_map_of_mem _ hf)
  have hskip : ∀ g ∈ files, g.id = some i →
      jsTruthy g.id = false ∨ jsTruthy g.name = false ∨
      isNativeDoc g.mimeType = true := by
    intro g hg hgi
    have hgf : g = f := nodup_filterMap_inj hnd hg hf hgi hid
    subst hgf
    exact hskipf
  obtain ⟨hframe, hdls⟩ := syncAddPass_frame _ _ _ _ _ _ hadd hskip
  have hfinal : jget (stateKnown0 out.state key) i = some r := by
    rw [hsk, syncDeletePass_frame _ _ _ _ _ hcontains, hframe, hr]
  refine ⟨hfinal, hdls, ?_, ?_⟩
  · intro d hd hdi
    have := syncDeletePass_del_ids ul lp (files.map (fun f => f.id)) known1 d
      (hdel ▸ hd)
    rw [hdi, hcontains] at this
    cases this
  · obtain ⟨k1, _, hstate, _⟩ := syncFolder_inv _ _ _ _ _ _ _ hrun
    have hjoutkey : jget out.state.dirs key =
        some ⟨(syncDeletePass ul lp (files.map (fun f => f.id)) k1).1⟩ := by
      rw [hstate]
      exact jget_jset_self _ _ _
    have hjout2 : jget out.state.dirs key =
        some ⟨stateKnown0 out.state key⟩ := by
      rw [hjoutkey, stateKnown0_eq, hjoutkey]
      rfl
    rw [jget_buildMediaMap, hjout2]
    simp only [Option.map_some', Option.getD_some]
    have hpair : (i, r) ∈ stateKnown0 out.state key := jget_mem _ _ _ hfinal
    exact List.mem_map_of_mem (fun q => mediaPath key q.2) hpair

/-! ## Concrete sample data -/

/-- A plain binary entry with id `a`. -/
def entA : RemoteEntry :=
  ⟨some "a", some "f1.png", some "image/png", some "t1"⟩

/-- A plain binary entry with id `b`. -/
def entB : RemoteEntry :=
  ⟨some "b", some "f2.png", some "image/png", some "t1"⟩

/-- The state produced by syncing `[entA, entB]` into an empty state under
key `x`. -/
def stateAB : State :=
  ⟨[("x", ⟨[("a", ⟨some "t1", "f1.png", some "image/png"⟩),
            ("b", ⟨some "t1", "f2.png", some "image/png"⟩)]⟩)]⟩

set_option maxRecDepth 20000 in
/-- C1. The claim fails on the code: `syncFolder` has no try/catch around
`await downloadBinary(...)`, so when the download of the first batch entry
fails the thrown error propagates out of `syncFolder` — the whole call
aborts with the error and the second entry of the batch is never
reconciled (no state for it is produced at all).  With every download
succeeding the very same batch reconciles both entries, showing the
second entry was lost to the propagated failure, not filtered. -/
theorem c1_download_failure_aborts_batch :
    syncFolder (fun g => g.id != some "a") (fun _ => true) [entA, entB]
      "public/x" ⟨[]⟩ "x" = .error () ∧
    syncFolder (fun _ => true) (fun _ => true) [entA, entB]
      "public/x" ⟨[]⟩ "x" = .ok ⟨stateAB, [entA, entB], []⟩ := by
  constructor
  · rfl
  · rfl

set_option maxRecDepth 20000 in
/-- Witness for C2: the state reached by syncing `[entA, entB]` once is a
fixed point — a second run downloads nothing (even with an
always-failing download oracle) and deletes nothing. -/
theorem c2_witness :
    syncFolder (fun _ => false) (fun _ => false) [entA, entB] "public/x"
      stateAB "x" = .ok ⟨stateAB, [], []⟩ :=
  c2_syncFolder_idempotent (fun _ => true) (fun _ => false) (fun _ => true)
    (fun _ => false) [entA, entB] "public/x" ⟨[]⟩ "x"
    ⟨stateAB, [entA, entB], []⟩ (by decide) (by rfl)

/-! ## Orchestrator lemmas -/

theorem partitionFold_folders (l : List RemoteEntry)
    (acc : List (String × Option String) × List RemoteEntry) :
    ∀ p ∈ (l.foldl partitionStep acc).1,
      p ∈ acc.1 ∨ ∃ it ∈ l, it.name = some p.1 ∧ it.id = p.2 ∧
        it.mimeType = some FOLDER_MIME ∧ isDenylisted p.1 = false := by
  induction l generalizing acc with
  | nil =>
    intro p hp
    exact Or.inl hp
  | cons item rest ih =>
    intro p hp
    rw [List.foldl_cons] at hp
    rcases ih (partitionStep acc item) p hp with h | ⟨it, hit, h1, h2, h3, h4⟩
    · unfold partitionStep at h
      by_cases hguard : (!(jsTruthy item.name) || !(jsTruthy item.mimeType)) = true
      · rw [if_pos hguard] at h
        exact Or.inl h
      · rw [if_neg hguard] at h
        have htn : jsTruthy item.name = true := by
          rcases Bool.or_eq_false_iff.mp (Bool.eq_false_iff.mpr hguard) with ⟨ha, _⟩
          simpa using ha
        by_cases hfold : (item.mimeType == some FOLDER_MIME) = true
        · rw [if_pos hfold] at h
          by_cases hdeny : isDenylisted (item.name.getD "") = true
          · rw [if_pos hdeny] at h
            exact Or.inl h
          · rw [if_neg hdeny] at h
            rcases jset_mem _ _ _ _ h with he | he
            · right
              obtain ⟨s, hs, _⟩ := jsTruthy_some htn
              have hgd : item.name.getD "" = s := by rw [hs]; rfl
              refine ⟨item, List.mem_cons_self _ _, ?_, ?_, eq_of_beq hfold, ?_⟩
              · rw [he, hgd, hs]
              · rw [he]
              · rw [he]
                exact Bool.eq_false_iff.mpr hdeny
            · exact Or.inl he
        · rw [if_neg hfold] at h
          by_cases hnat : isNativeDoc item.mimeType = true
          · rw [if_pos hnat] at h
            exact Or.inl h
          · rw [if_neg hnat] at h
            exact Or.inl h
    · exact Or.inr ⟨it, List.mem_cons_of_mem _ hit, h1, h2, h3, h4⟩

theorem partitionFold_rootFiles (l : List RemoteEntry)
    (acc : List (String × Option String) × List RemoteEntry) :
    ∀ g ∈ (l.foldl partitionStep acc).2,
      g ∈ acc.2 ∨ (g ∈ l ∧ isNativeDoc g.mimeType = false) := by
  induction l generalizing acc with
  | nil =>
    intro g hg
    exact Or.inl hg
  | cons item rest ih =>
    intro g hg
    rw [List.foldl_cons] at hg
    rcases ih (partitionStep acc item) g hg with h | ⟨h1, h2⟩
    · unfold partitionStep at h
      by_cases hguard : (!(jsTruthy item.name) || !(jsTruthy item.mimeType)) = true
      · rw [if_pos hguard] at h
        exact Or.inl h
      · rw [if_neg hguard] at h
        by_cases hfold : (item.mimeType == some FOLDER_MIME) = true
        · rw [if_pos hfold] at h
          by_cases hdeny : isDenylisted (item.name.getD "") = true
          · rw [if_pos hdeny] at h
            exact Or.inl h
          · rw [if_neg hdeny] at h
            exact Or.inl h
        · rw [if_neg hfold] at h
          by_cases hnat : isNativeDoc item.mimeType = true
          · rw [if_pos hnat] at h
            exact Or.inl h
          · rw [if_neg hnat] at h
            rcases List.mem_append.mp h with hm | hm
            · exact Or.inl hm
            · right
              rw [List.mem_singleton.mp hm]
              exact ⟨List.mem_cons_self _ _, Bool.eq_false_iff.mpr hnat⟩
    · exact Or.inr ⟨List.mem_cons_of_mem _ h1, h2⟩

theorem runFolders_listed (dl : RemoteEntry → Bool) (ul : String → Bool)
    (listings : Option String → List RemoteEntry)
    (folders : List (String × Option String)) (st st2 : State)
    (listed : List (Option String))
    (hrun : runFolders dl ul listings folders st = .ok (st2, listed)) :
    ∀ g ∈ listed, ∃ nm, (nm, g) ∈ folders := by
  induction folders generalizing st listed with
  | nil =>
    rw [runFolders] at hrun
    cases hrun
    intro g hg
    simp at hg
  | cons p rest ih =>
    rcases p with ⟨nm, fid⟩
    rw [runFolders] at hrun
    cases hsf : syncFolder dl ul (listings fid) (pathJoin PUBLIC_DIR nm) st nm with
    | error e =>
      rw [hsf] at hrun
      exact absurd hrun (by simp)
    | ok out =>
      rw [hsf] at hrun
      dsimp only at hrun
      cases hrf : runFolders dl ul listings rest out.state with
      | error e =>
        rw [hrf] at hrun
        exact absurd hrun (by simp)
      | ok res =>
        rcases res with ⟨st3, listed1⟩
        rw [hrf] at hrun
        dsimp only at hrun
        cases hrun
        intro g hg
        rcases List.mem_cons.mp hg with h | h
        · exact ⟨nm, by rw [h]; exact List.mem_cons_self _ _⟩
        · obtain ⟨nm1, hnm1⟩ := ih _ _ hrf g h
          exact ⟨nm1, List.mem_cons_of_mem _ hnm1⟩

theorem runFolders_frame (dl : RemoteEntry → Bool) (ul : String → Bool)
    (listings : Option String → List RemoteEntry)
    (folders : List (String × Option String)) (st st2 : State)
    (listed : List (Option String)) (k : String)
    (hrun : runFolders dl ul listings folders st = .ok (st2, listed))
    (hk : ∀ nm fid, (nm, fid) ∈ folders → k ≠ nm) :
    jget st2.dirs k = jget st.dirs k := by
  induction folders generalizing st listed with
  | nil =>
    rw [runFolders] at hrun
    cases hrun
    rfl
  | cons p rest ih =>
    rcases p with ⟨nm, fid⟩
    rw [runFolders] at hrun
    cases hsf : syncFolder dl ul (listings fid) (pathJoin PUBLIC_DIR nm) st nm with
    | error e =>
      rw [hsf] at hrun
      exact absurd hrun (by simp)
    | ok out =>
      rw [hsf] at hrun
      dsimp only at hrun
      cases hrf : runFolders dl ul listings rest out.state with
      | error e =>
        rw [hrf] at hrun
        exact absurd hrun (by simp)
      | ok res =>
        rcases res with ⟨st3, listed1⟩
        rw [hrf] at hrun
        dsimp only at hrun
        cases hrun
        rw [ih _ _ hrf (fun nm1 fid1 hm => hk nm1 fid1 (List.mem_cons_of_mem _ hm)),
          syncFolder_frame _ _ _ _ _ _ _ _ hsf (hk nm fid (List.mem_cons_self _ _))]

theorem runMain_inv (dl : RemoteEntry → Bool) (ul : String → Bool)
    (listings : Option String → List RemoteEntry)
    (rootItems : List RemoteEntry) (state st2 : State)
    (listed : List (Option String))
    (hrun : runMain dl ul listings rootItems state = .ok (st2, listed)) :
    ∃ st1 out,
      runFolders dl ul listings (partitionRoot rootItems).1 state =
        .ok (st1, listed) ∧
      syncFolder dl ul (partitionRoot rootItems).2 PUBLIC_DIR st1 ROOT_KEY =
        .ok out ∧
      st2 = out.state := by
  unfold runMain at hrun
  cases hrf : runFolders dl ul listings (partitionRoot rootItems).1 state with
  | error e =>
    rw [hrf] at hrun
    exact absurd hrun (by simp)
  | ok res =>
    rcases res with ⟨st1, listed1⟩
    rw [hrf] at hrun
    dsimp only at hrun
    cases hsf : syncFolder dl ul (partitionRoot rootItems).2 PUBLIC_DIR st1
        ROOT_KEY with
    | error e =>
      rw [hsf] at hrun
      exact absurd hrun (by simp)
    | ok out =>
      rw [hsf] at hrun
      dsimp only at hrun
      cases hrun
      exact ⟨st1, out, rfl, hsf, rfl⟩

/-- C6. A top-level folder item whose name matches the denylist
(case-insensitive substring over 'assets', 'cursors', 'private'; root
listing ids pairwise distinct) is never listed by a successful run of the
orchestrator, and the DirectoryState stored under its name key is left
exactly as it was. -/
theorem c6_denylisted_folder_untouched (dl : RemoteEntry → Bool)
    (ul : String → Bool) (listings : Option String → List RemoteEntry)
    (rootItems : List RemoteEntry) (state st2 : State)
    (listed : List (Option String)) (item : RemoteEntry) (n fid : String)
    (hmem : item ∈ rootItems) (hname : item.name = some n)
    (hmime : item.mimeType = some FOLDER_MIME)
    (hdeny : isDenylisted n = true) (hid : item.id = some fid)
    (hnd : (rootItems.filterMap (fun g => g.id)).Nodup)
    (hrun : runMain dl ul listings rootItems state = .ok (st2, listed)) :
    some fid ∉ listed ∧ jget st2.dirs n = jget state.dirs n := by
  obtain ⟨st1, out, hrf, hsf, hst2⟩ := runMain_inv _ _ _ _ _ _ _ hrun
  have hfolders : ∀ p ∈ (partitionRoot rootItems).1,
      p.1 ≠ n ∧ p.2 ≠ some fid := by
    intro p hp
    rcases partitionFold_folders rootItems ([], []) p hp with
      h | ⟨it, hit, h1, h2, h3, h4⟩
    · simp at h
    · constructor
      · intro he
        rw [he] at h4
        rw [h4] at hdeny
        exact Bool.false_ne_true hdeny
      · intro he
        have hitid : it.id = some fid := by rw [h2, he]
        have hitem : it = item := nodup_filterMap_inj hnd hit hmem hitid hid
        have hpn : p.1 = n := by
          rw [hitem, hname] at h1
          injection h1 with h5
          exact h5.symm
        rw [hpn] at h4
        rw [h4] at hdeny
        exact Bool.false_ne_true hdeny
  constructor
  · intro hmemlist
    obtain ⟨nm, hnm⟩ := runFolders_listed _ _ _ _ _ _ _ hrf (some fid) hmemlist
    exact (hfolders (nm, some fid) hnm).2 rfl
  · have hnroot : n ≠ ROOT_KEY := by
      intro he
      rw [he] at hdeny
      exact absurd hdeny (by decide)
    have h1 : jget st1.dirs n = jget state.dirs n :=
      runFolders_frame _ _ _ _ _ _ _ _ hrf
        (fun nm fid1 hm he => (hfolders (nm, fid1) hm).1 he.symm)
    have h2 : jget out.state.dirs n = jget st1.dirs n :=
      syncFolder_frame _ _ _ _ _ _ _ _ hsf hnroot
    rw [hst2, h2, h1]

/-- C7. Native-document entries (`application/vnd.google-apps.` prefix)
never reach the download path and never produce a FileRecord: the add pass
behaves identically with all native entries filtered out of the listing
(they trigger no download and no record write, in a named folder's or the
root pseudo-folder's reconciliation alike), every entry actually
downloaded by a successful `syncFolder` run is non-native, and the
orchestrator's loose root files are pre-filtered to non-native entries. -/
theorem c7_native_docs_never_downloaded :
    (∀ (dl : RemoteEntry → Bool) (files : List RemoteEntry)
        (known : List (String × FileState)),
      syncAddPass dl files known =
        syncAddPass dl (files.filter (fun f => !(isNativeDoc f.mimeType)))
          known) ∧
    (∀ (dl : RemoteEntry → Bool) (ul : String → Bool)
        (files : List RemoteEntry) (lp : String) (state : State)
        (key : String) (out : SyncOutcome),
      syncFolder dl ul files lp state key = .ok out →
      ∀ g ∈ out.downloads, isNativeDoc g.mimeType = false) ∧
    (∀ rootItems : List RemoteEntry, ∀ g ∈ (partitionRoot rootItems).2,
      isNativeDoc g.mimeType = false) := by
  refine ⟨?_, ?_, ?_⟩
  · intro dl files known
    induction files generalizing known with
    | nil => rfl
    | cons f rest ih =>
      rw [List.filter_cons]
      by_cases hnat : isNativeDoc f.mimeType = true
      · rw [if_neg (by rw [hnat]; simp)]
        rw [syncAddPass]
        by_cases h1 : (!(jsTruthy f.id) || !(jsTruthy f.name)) = true
        · rw [if_pos h1]
          exact ih known
        · rw [if_neg h1, if_pos hnat]
          exact ih known
      · have hnatf := Bool.eq_false_iff.mpr hnat
        rw [if_pos (by rw [hnatf]; simp)]
        rw [syncAddPass, syncAddPass]
        by_cases h1 : (!(jsTruthy f.id) || !(jsTruthy f.name)) = true
        · rw [if_pos h1, if_pos h1]
          exact ih known
        · rw [if_neg h1, if_neg h1, if_neg hnat, if_neg hnat]
          by_cases h3 : needsDownload known f (f.id.getD "") = true
          · rw [if_pos h3, if_pos h3]
            cases hdb : downloadBinary dl f with
            | error e => rfl
            | ok saved =>
              dsimp only
              rw [ih (jset known (f.id.getD "")
                { modifiedTime := f.modifiedTime
                  name := saved.getD (safeName (f.name.getD ""))
                  mimeType := f.mimeType })]
          · rw [if_neg h3, if_neg h3]
            exact ih known
  · intro dl ul files lp state key out hrun g hg
    obtain ⟨known1, hadd, _, _⟩ := syncFolder_final _ _ _ _ _ _ _ hrun
    exact (syncAddPass_downloads _ _ _ _ _ hadd g hg).2.2.2
  · intro rootItems g hg
    rcases partitionFold_rootFiles rootItems ([], []) g hg with h | ⟨_, h2⟩
    · simp at h
    · exact h2

set_option maxRecDepth 20000 in
/-- Witness for C7: the second and third conjuncts applied to a concrete
successful run and a concrete root listing. -/
theorem c7_witness :
    isNativeDoc entA.mimeType = false ∧ isNativeDoc entB.mimeType = false := by
  constructor
  · exact c7_native_docs_never_downloaded.2.1 (fun _ => true) (fun _ => true)
      [entA, entB] "public/x" ⟨[]⟩ "x" ⟨stateAB, [entA, entB], []⟩ (by rfl)
      entA (by decide)
  · exact c7_native_docs_never_downloaded.2.2 [entB] entB (by decide)

/-- C8. The media index is a pure function of the final state: looking up
any directory key yields exactly the insertion-ordered list of its
FileRecords' paths — root-relative for the reserved root pseudo-key,
`/key/name` otherwise — and the two concrete example states from the spec
produce exactly the indices it demands. -/
theorem c8_media_index (st : State) (k : String) :
    jget (buildMediaMap st) k =
      (jget st.dirs k).map (fun d => d.files.map (fun q =>
        if k == ROOT_KEY then "/" ++ q.2.name
        else "/" ++ k ++ "/" ++ q.2.name)) ∧
    buildMediaMap ⟨[("Photos", ⟨[("id1", ⟨some "t1", "a.jpg", none⟩)]⟩)]⟩ =
      [("Photos", ["/Photos/a.jpg"])] ∧
    buildMediaMap ⟨[(ROOT_KEY, ⟨[("id2", ⟨some "t", "b.png", none⟩)]⟩)]⟩ =
      [(ROOT_KEY, ["/b.png"])] := by
  refine ⟨?_, by decide, by decide⟩
  exact jget_buildMediaMap st k

/-- C9. The sanitizer is a pure function that replaces every character of
its hazardous class (path separators, glob wildcards, percent, quotes,
angle brackets, colon, pipe) by the placeholder `·` and then trims
surrounding whitespace: the spec's example input maps to
`a·b·c·d.png`, and no character of the class ever survives in any
output. -/
theorem c9_sanitizer (s : String) :
    safeName "a/b:c*d.png" = "a·b·c·d.png" ∧
    ∀ c ∈ (safeName s).data, isIllegalChar c = false := by
  refine ⟨by decide, ?_⟩
  intro c hc
  have hc1 : c ∈ ((((s.data.map (fun c => if isIllegalChar c then '·' else c)
      ).dropWhile Char.isWhitespace).reverse.dropWhile
        Char.isWhitespace).reverse) := hc
  have hc2 := List.mem_reverse.mp hc1
  have hc3 := (List.dropWhile_sublist _).mem hc2
  have hc4 := List.mem_reverse.mp hc3
  have hc5 := (List.dropWhile_sublist _).mem hc4
  obtain ⟨c0, _, he⟩ := List.mem_map.mp hc5
  by_cases hil : isIllegalChar c0 = true
  · rw [if_pos hil] at he
    rw [← he]
    decide
  · rw [if_neg hil] at he
    rw [← he]
    exact Bool.eq_false_iff.mpr hil

/-- Witness for C9: the concrete example, and the placeholder character
itself is legal (it appears in the sanitized output `a·b`). -/
theorem c9_witness :
    safeName "a/b:c*d.png" = "a·b·c·d.png" ∧ isIllegalChar '·' = false :=
  ⟨(c9_sanitizer "x").1, (c9_sanitizer "a/b").2 '·' (by decide)⟩

/-! ## Remaining concrete witness data -/

/-- Outcome of syncing `[entA]` into an empty state under key `x`. -/
def outA : SyncOutcome :=
  ⟨⟨[("x", ⟨[("a", ⟨some "t1", "f1.png", some "image/png"⟩)]⟩)]⟩, [entA], []⟩

set_option maxRecDepth 20000 in
/-- Witness for C3: a fresh entry (no FileRecord) is downloaded and its
record is upserted with the sanitized name, timestamp and content type. -/
theorem c3_witness :
    jget (stateKnown0 outA.state "x") "a" =
      some ⟨entA.modifiedTime, safeName "f1.png", entA.mimeType⟩ :=
  ((c3_download_iff_changed (fun _ => true) (fun _ => true) [entA] "public/x"
    ⟨[]⟩ "x" outA entA "a" "f1.png" (by decide) (by decide) rfl rfl
    (by decide) (by decide) (by decide) (by rfl)).2.2) (by decide)

/-- A rename-only entry: same id and `modifiedTime` as the stored record
for id `a`, different display name. -/
def entR : RemoteEntry :=
  ⟨some "a", some "new/name", some "image/png", some "t1"⟩

/-- Prior state holding id `a` at its original sanitized name. -/
def stateR : State :=
  ⟨[("x", ⟨[("a", ⟨some "t1", "old·name", some "image/png"⟩)]⟩)]⟩

set_option maxRecDepth 20000 in
/-- Witness for C4: a rename without a `modifiedTime` change is not
detected — the record survives with its original sanitized localName. -/
theorem c4_witness :
    jget (stateKnown0 stateR "x") "a" =
      some ⟨some "t1", "old·name", some "image/png"⟩ :=
  (c4_unchanged_entry_untouched (fun _ => true) (fun _ => true) [entR]
    "public/x" stateR "x" ⟨stateR, [], []⟩ entR "a"
    ⟨some "t1", "old·name", some "image/png"⟩ (by decide) (by decide) rfl
    (by decide) rfl (by rfl)).2

/-- Prior state with a record (`zz`) that the next listing no longer
carries, plus the still-live record for `a`. -/
def stateD : State :=
  ⟨[("x", ⟨[("a", ⟨some "t1", "f1.png", some "image/png"⟩),
            ("zz", ⟨some "t0", "old.png", none⟩)]⟩)]⟩

/-- Outcome of syncing `[entA]` over `stateD`: `zz` is removed. -/
def outD : SyncOutcome :=
  ⟨⟨[("x", ⟨[("a", ⟨some "t1", "f1.png", some "image/png"⟩)]⟩)]⟩, [],
    [("zz", "old.png")]⟩

set_option maxRecDepth 20000 in
/-- Witness for C5: the record absent from the listing is deleted (its
localName is unlinked) and removed from state. -/
theorem c5_witness :
    ("zz", "old.png") ∈ outD.deletions ∧
    jget (stateKnown0 outD.state "x") "zz" = none :=
  (c5_deletion_pass (fun _ => true) (fun _ => true) [entA] "public/x" stateD
    "x" outD "zz" (by rfl)).1 ⟨some "t0", "old.png", none⟩ (by decide)
    (by decide)

/-- A denylisted top-level folder item. -/
def fPriv : RemoteEntry := ⟨some "fp", some "Private", some FOLDER_MIME, some "t"⟩

/-- A retained top-level folder item. -/
def fPhotos : RemoteEntry := ⟨some "ff", some "Photos", some FOLDER_MIME, some "t"⟩

/-- Prior state under the denylisted folder's key. -/
def statePriv : State :=
  ⟨[("Private", ⟨[("q", ⟨some "t9", "secret.png", none⟩)]⟩)]⟩

/-- Final state of the concrete orchestrator run for the C6 witness. -/
def stPriv2 : State :=
  ⟨[("Private", ⟨[("q", ⟨some "t9", "secret.png", none⟩)]⟩),
    ("Photos", ⟨[("a", ⟨some "t1", "f1.png", some "image/png"⟩)]⟩),
    ("public-root", ⟨[]⟩)]⟩

set_option maxRecDepth 100000 in
/-- Witness for C6: the folder named `Private` is not listed and its prior
state survives the run byte for byte. -/
theorem c6_witness :
    some "fp" ∉ [some "ff"] ∧
    jget stPriv2.dirs "Private" = jget statePriv.dirs "Private" :=
  c6_denylisted_folder_untouched (fun _ => true) (fun _ => true)
    (fun fid => if fid == some "ff" then [entA] else []) [fPriv, fPhotos]
    statePriv stPriv2 [some "ff"] fPriv "Private" "fp" (by decide) rfl rfl
    (by decide) rfl (by decide) (by rfl)

/-- A native-document entry whose id has a prior FileRecord. -/
def entN : RemoteEntry :=
  ⟨some "n1", some "Doc", some "application/vnd.google-apps.document",
    some "t2"⟩

/-- Prior state holding a record for the native entry's id. -/
def stateN : State := ⟨[("x", ⟨[("n1", ⟨some "t0", "doc.bin", none⟩)]⟩)]⟩

set_option maxRecDepth 20000 in
/-- Witness for C10: the record shielded by a filtered (native) entry's id
still appears in the media index after the run. -/
theorem c10_witness :
    mediaPath "x" ⟨some "t0", "doc.bin", none⟩ ∈
      (jget (buildMediaMap stateN) "x").getD [] :=
  (c10_skipped_entry_shields_record (fun _ => true) (fun _ => true) [entN]
    "public/x" stateN "x" ⟨stateN, [], []⟩ entN "n1"
    ⟨some "t0", "doc.bin", none⟩ (by decide) (by decide) rfl
    (Or.inr (Or.inr (by decide))) (by decide) (by rfl)).2.2.2

end FetchSync
